import Mathlib

/-!
Verification of the line-splitting algorithm of the `wordwrap` Go package
(`src/wordwrap.go`): `SplitBuilder.Split`, `SplitBuilder.SplitString`, the
package-level `SplitString`, `WrapString` and `join`.

Shallow embedding conventions:
* a byte is a `Nat` (the Go code only compares byte counts and slices at
  byte offsets, so byte values are opaque except for the four ASCII
  whitespace bytes used by `strings.TrimRight`);
* a rune is its UTF-8 byte sequence together with its `unicode.IsSpace`
  classification -- the codepoint decoder is an external oracle in the Go
  code, so the classification travels with the data;
* a grapheme cluster is the list of runes produced by the external
  segmentation oracle (`uniseg.NewGraphemes`); the oracle guarantees
  clusters are non-empty, ordered, non-overlapping and exhaustive, so an
  input string is modelled as the list of its clusters and its bytes are
  the concatenation of the cluster bytes;
* `byteLimit : uint` is modelled as `Nat`; the Go code compares through
  `int(byteLimit)`, which is exact for limits below 2^63;
* the error value `ErrGraphemeClusterTooLarge` (the only error the code
  can yield) is modelled as the flag `true` of a `Bool`;
* the iterator `iter.Seq2[string, error]` is modelled as the list of the
  pairs it yields when the caller consumes it to completion (every `yield`
  returns true); early returns of the iterator itself are modelled by
  cutting off the produced list.
-/

namespace Wordwrap

/-- A rune: its UTF-8 byte sequence and its `unicode.IsSpace` class. -/
structure GRune where
  bytes : List Nat
  isSpace : Bool
deriving DecidableEq, Repr

/-- A grapheme cluster as delivered by the segmentation oracle: the list
of the runes it consists of (`for _, r := range cluster` iterates them). -/
structure GCluster where
  runes : List GRune
deriving DecidableEq, Repr

/-- The byte content of a cluster (`gr.Str()` / `len(cluster)` views). -/
def GCluster.bytes (c : GCluster) : List Nat :=
  (c.runes.map GRune.bytes).flatten

/-- Whether the first rune of the cluster is whitespace:
`utf8.DecodeRuneInString(cluster)` plus `unicode.IsSpace(firstRune)`. -/
def GCluster.firstIsSpace (c : GCluster) : Bool :=
  match c.runes with
  | [] => false
  | r :: _ => r.isSpace

/-- The byte content of an input string given as its cluster sequence. -/
def inputBytes (cs : List GCluster) : List Nat :=
  (cs.map GCluster.bytes).flatten

/-- The `charPos` record of the source: a remembered offset and the size
of the cluster (or rune) that ended there. -/
structure CharPos where
  pos : Nat
  size : Nat
deriving DecidableEq, Repr

/-- The configuration flags of `SplitBuilder`. -/
structure SplitBuilder where
  continueOnError : Bool
  breakGraphemeClusters : Bool
  trimTrailingWhiteSpace : Bool
deriving DecidableEq, Repr

/-- The `DefaultSplitBuilder` value: all three flags off. -/
def DefaultSplitBuilder : SplitBuilder :=
  { continueOnError := false
    breakGraphemeClusters := false
    trimTrailingWhiteSpace := false }

/-- The mutable locals of one pass of `SplitBuilder.Split`. -/
structure SplitState where
  workingLine : List Nat
  spacePos : CharPos
  lastPos : CharPos
deriving DecidableEq, Repr

/-- The initial state of a pass. -/
def initState : SplitState :=
  { workingLine := [], spacePos := ⟨0, 0⟩, lastPos := ⟨0, 0⟩ }

/-- The trim `strings.TrimRight(line, " \t\n\r")`: drop trailing whitespace bytes.
For well-formed UTF-8 this byte-level trim coincides with the Go rune-level
trim because the cutset is pure ASCII and multi-byte runes never end in an
ASCII byte. -/
def trimRightBytes (l : List Nat) : List Nat :=
  (l.reverse.dropWhile fun b => b == 32 || b == 9 || b == 10 || b == 13).reverse

/-- The per-yield trimming the source applies at every emission site. -/
def applyTrim (sb : SplitBuilder) (l : List Nat) : List Nat :=
  if sb.trimTrailingWhiteSpace then trimRightBytes l else l

/-- The inner `for _, r := range cluster` loop of the bisection path
(source lines 145-167): append the runes of an oversized cluster one by
one, emitting an ok line whenever the working line reaches the limit.
Returns the state after the loop and the lines emitted by it. -/
def bisectLoop (sb : SplitBuilder) (byteLimit : Nat) :
    List GRune → SplitState → SplitState × List (List Nat × Bool)
  | [], st => (st, [])
  | r :: rs, st =>
    let wl := st.workingLine ++ r.bytes
    if byteLimit ≤ wl.length then
      let rest := bisectLoop sb byteLimit rs
        { workingLine := [], spacePos := ⟨0, 0⟩, lastPos := ⟨0, r.bytes.length⟩ }
      (rest.1, (applyTrim sb wl, false) :: rest.2)
    else
      bisectLoop sb byteLimit rs
        { workingLine := wl, spacePos := st.spacePos,
          lastPos := ⟨wl.length, r.bytes.length⟩ }

/-- One iteration of the cluster loop of `SplitBuilder.Split` (source
lines 109-234): returns the state for the next iteration, the lines
yielded during this iteration, and whether the iterator returned
(stopping before any further input and before the final flush). -/
def splitStep (sb : SplitBuilder) (byteLimit : Nat) (st : SplitState)
    (c : GCluster) : SplitState × List (List Nat × Bool) × Bool :=
  let clusterSize := c.bytes.length
  if byteLimit < clusterSize ∧ sb.breakGraphemeClusters = false then
    -- oversized-cluster pre-check (lines 114-141)
    let flushOut : List (List Nat × Bool) :=
      if 0 < st.workingLine.length then [(applyTrim sb st.workingLine, false)] else []
    let st1 : SplitState :=
      if 0 < st.workingLine.length then initState else st
    (st1, flushOut ++ [(applyTrim sb c.bytes, true)], !sb.continueOnError)
  else if sb.breakGraphemeClusters = true ∧ byteLimit < clusterSize then
    -- bisection path (lines 145-167)
    let r := bisectLoop sb byteLimit c.runes st
    (r.1, r.2, false)
  else
    -- normal append (lines 169-233)
    let wl := st.workingLine ++ c.bytes
    let sp : CharPos :=
      if c.firstIsSpace then ⟨wl.length, clusterSize⟩ else st.spacePos
    if byteLimit ≤ wl.length then
      if 0 < sp.size then
        -- space-candidate cut (lines 177-188)
        let rest := wl.drop sp.pos
        ({ workingLine := rest, spacePos := ⟨0, 0⟩,
           lastPos := ⟨rest.length, clusterSize⟩ },
         [(applyTrim sb (wl.take sp.pos), false)], false)
      else if byteLimit < wl.length then
        if st.lastPos.pos = 0 then
          -- single cluster overflow (lines 191-204)
          ({ workingLine := [], spacePos := ⟨0, 0⟩, lastPos := ⟨0, clusterSize⟩ },
           [(applyTrim sb wl, true)], !sb.continueOnError)
        else
          -- last-safe-candidate cut (lines 205-217)
          let rest := wl.drop st.lastPos.pos
          ({ workingLine := rest, spacePos := ⟨0, 0⟩,
             lastPos := ⟨rest.length, clusterSize⟩ },
           [(applyTrim sb (wl.take st.lastPos.pos), false)], false)
      else
        -- exact fit (lines 218-227)
        ({ workingLine := [], spacePos := ⟨0, 0⟩, lastPos := ⟨0, clusterSize⟩ },
         [(applyTrim sb wl, false)], false)
    else
      ({ workingLine := wl, spacePos := sp, lastPos := ⟨wl.length, clusterSize⟩ },
       [], false)

/-- The cluster loop plus the final flush (lines 236-246) of
`SplitBuilder.Split`, from an arbitrary state. -/
def splitGo (sb : SplitBuilder) (byteLimit : Nat) :
    List GCluster → SplitState → List (List Nat × Bool)
  | [], st =>
    if 0 < st.workingLine.length then
      [(applyTrim sb st.workingLine, decide (byteLimit < st.workingLine.length))]
    else []
  | c :: cs, st =>
    let r := splitStep sb byteLimit st c
    r.2.1 ++ (if r.2.2 then [] else splitGo sb byteLimit cs r.1)

/-- The iterator `SplitBuilder.Split`, consumed to completion: the list of
(line content, error?) pairs the iterator yields. `true` stands for
`ErrGraphemeClusterTooLarge`, the only error the code produces. -/
def SplitBuilder.Split (sb : SplitBuilder) (cs : List GCluster)
    (byteLimit : Nat) : List (List Nat × Bool) :=
  splitGo sb byteLimit cs initState

/-- The collection loop of `SplitBuilder.SplitString` (lines 254-269):
append every yielded line; on the first error, record it and return early
unless `continueOnError` is set. -/
def collectLines (continueOnError : Bool) :
    List (List Nat × Bool) → List (List Nat) × Bool
  | [] => ([], false)
  | (l, e) :: rest =>
    if e = true ∧ continueOnError = false then ([l], true)
    else
      let r := collectLines continueOnError rest
      (l :: r.1, e || r.2)

/-- The method `SplitBuilder.SplitString`: the collected lines and whether an
`ErrGraphemeClusterTooLarge` error was returned. -/
def SplitBuilder.SplitString (sb : SplitBuilder) (cs : List GCluster)
    (byteLimit : Nat) : List (List Nat) × Bool :=
  collectLines sb.continueOnError (sb.Split cs byteLimit)

/-- The package-level `SplitString` (lines 281-283): delegates to
`DefaultSplitBuilder`. -/
def SplitString (cs : List GCluster) (byteLimit : Nat) :
    List (List Nat) × Bool :=
  DefaultSplitBuilder.SplitString cs byteLimit

/-- The vendored `join` (lines 304-323), structurally: nothing for an
empty slice, the single element alone, otherwise the head followed by
`sep ++ s` for every further element (what the copy loop writes). -/
def join : List (List Nat) → List Nat → List Nat
  | [], _ => []
  | [x], _ => x
  | x :: y :: rest, sep => x ++ ((y :: rest).map fun s => sep ++ s).flatten

/-- The function `WrapString` (lines 289-295): split, and on success join with a
single newline byte; on error return the empty string and the error. -/
def WrapString (cs : List GCluster) (byteLimit : Nat) : List Nat × Bool :=
  let r := SplitString cs byteLimit
  if r.2 then ([], true) else (join r.1 [10], false)

/-- The concatenation of the line contents of an emitted sequence. -/
def yieldedBytes (out : List (List Nat × Bool)) : List Nat :=
  (out.map Prod.fst).flatten

/-- Modelled from the spec: the lines joined with a single newline between
consecutive lines and no trailing newline, i.e. `intercalate`. Used as the
reference point of the `wrap = split + join` refinement. -/
def specJoinLines (lines : List (List Nat)) : List Nat :=
  List.intercalate [10] lines

/-! Concrete clusters used in sanity checks and counterexamples. -/

/-- A one-byte non-space character as a cluster (ASCII letter). -/
def asciiCh (b : Nat) : GCluster := ⟨[⟨[b], false⟩]⟩

/-- The ASCII space character as a cluster. -/
def spaceCh : GCluster := ⟨[⟨[32], true⟩]⟩

/-- A CRLF grapheme cluster: `\r\n` is a single cluster whose first rune
`\r` satisfies `unicode.IsSpace`. -/
def crlfCh : GCluster := ⟨[⟨[13], true⟩, ⟨[10], true⟩]⟩

/-- A four-byte single-rune cluster (e.g. U+20000, UTF-8
`f0 a0 80 80`). -/
def wideCh : GCluster := ⟨[⟨[240, 160, 128, 128], false⟩]⟩

/-- The cluster list of the ASCII string `ab cd`. -/
def abcdInput : List GCluster :=
  [asciiCh 97, asciiCh 98, spaceCh, asciiCh 99, asciiCh 100]

/-- The cluster list of the ASCII string `abc` followed by CRLF. -/
def abcCrlfInput : List GCluster :=
  [asciiCh 97, asciiCh 98, asciiCh 99, crlfCh]

/-- The cluster list of a four-byte character followed by `a`. -/
def wideAInput : List GCluster := [wideCh, asciiCh 97]

/-- The cluster list of a space, `a`, `b`, then a four-byte character. -/
def spaceAbWideInput : List GCluster :=
  [spaceCh, asciiCh 97, asciiCh 98, wideCh]

example :
    SplitString abcdInput 5 = ([[97, 98, 32], [99, 100]], false) := by decide

example :
    SplitString abcCrlfInput 4 = ([[97, 98, 99, 13, 10]], false) := by decide

/-! ### Basic lemmas -/

theorem applyTrim_of_trim_off {sb : SplitBuilder}
    (h : sb.trimTrailingWhiteSpace = false) (l : List Nat) :
    applyTrim sb l = l := by
  simp [applyTrim, h]

@[simp] theorem inputBytes_nil : inputBytes [] = [] := rfl

@[simp] theorem inputBytes_cons (c : GCluster) (cs : List GCluster) :
    inputBytes (c :: cs) = c.bytes ++ inputBytes cs := by
  simp [inputBytes]

@[simp] theorem inputBytes_append (a b : List GCluster) :
    inputBytes (a ++ b) = inputBytes a ++ inputBytes b := by
  simp [inputBytes]

theorem inputBytes_singleton (c : GCluster) : inputBytes [c] = c.bytes := by
  simp [inputBytes]

theorem inputBytes_eq_nil {ws : List GCluster}
    (hne : ∀ x ∈ ws, x.bytes ≠ []) (h : inputBytes ws = []) : ws = [] := by
  cases ws with
  | nil => rfl
  | cons c cs =>
    rw [inputBytes_cons] at h
    exact absurd (List.append_eq_nil.mp h).1 (hne c (by simp))

@[simp] theorem yieldedBytes_nil : yieldedBytes [] = [] := rfl

@[simp] theorem yieldedBytes_cons (p : List Nat × Bool)
    (out : List (List Nat × Bool)) :
    yieldedBytes (p :: out) = p.1 ++ yieldedBytes out := by
  simp [yieldedBytes]

@[simp] theorem yieldedBytes_append (a b : List (List Nat × Bool)) :
    yieldedBytes (a ++ b) = yieldedBytes a ++ yieldedBytes b := by
  simp [yieldedBytes]

theorem GCluster.bytes_eq_flatten (c : GCluster) :
    c.bytes = (c.runes.map GRune.bytes).flatten := rfl

/-! ### C5: `join` refines spec-side joining, and `WrapString` semantics -/

theorem join_map_sep (sep y : List Nat) (rest : List (List Nat)) :
    ((y :: rest).map fun s => sep ++ s).flatten = sep ++ join (y :: rest) sep := by
  cases rest with
  | nil => simp [join]
  | cons z rest => simp [join, List.append_assoc]

theorem join_eq_specJoin : ∀ a : List (List Nat), join a [10] = specJoinLines a
  | [] => by simp [join, specJoinLines, List.intercalate, List.intersperse]
  | [x] => by simp [join, specJoinLines, List.intercalate, List.intersperse]
  | x :: y :: rest => by
    have ih := join_eq_specJoin (y :: rest)
    simp only [specJoinLines, List.intercalate] at ih ⊢
    show x ++ ((y :: rest).map fun s => [10] ++ s).flatten = _
    rw [join_map_sep, ih]
    simp [List.intersperse, List.append_assoc]

/-- C5. `WrapString` is `SplitString` followed by joining with a single
newline between consecutive lines (no trailing newline) when `SplitString`
succeeds, and is the empty string paired with exactly the error of
`SplitString` when it fails. -/
theorem wrapString_refines_splitString (cs : List GCluster) (byteLimit : Nat) :
    WrapString cs byteLimit =
      (if (SplitString cs byteLimit).2 then []
       else specJoinLines (SplitString cs byteLimit).1,
       (SplitString cs byteLimit).2) := by
  unfold WrapString
  by_cases h : (SplitString cs byteLimit).2 <;>
    simp [h, join_eq_specJoin]

/-! ### C9: an input of byte length exactly `byteLimit` can still split -/

/-- C9. The five-byte input `ab cd` with byte limit 5 (the budget check
fires at length equal to the limit) is cut at the space candidate into two
lines instead of being returned whole. -/
theorem splitString_exact_fit_splits :
    (inputBytes abcdInput).length = 5 ∧
      SplitString abcdInput 5 = ([[97, 98, 32], [99, 100]], false) ∧
      1 < (SplitString abcdInput 5).1.length := by decide

/-! ### C6: the space candidate always wins over the last-safe candidate -/

/-- C6. When a cluster that fits the budget is appended and the budget
check fires while a space candidate is recorded (`spC`, the candidate
after the whitespace update of this iteration) and a last-safe candidate
is recorded (`st.lastPos.pos ≠ 0`), the yielded line is the working line
truncated at the space candidate — never at the last-safe candidate — and
the remainder from the space candidate onward seeds the next working
line. -/
theorem splitStep_space_candidate_wins (sb : SplitBuilder) (byteLimit : Nat)
    (st : SplitState) (c : GCluster) (spC : CharPos)
    (hsp : spC = if c.firstIsSpace = true
        then CharPos.mk (st.workingLine ++ c.bytes).length c.bytes.length
        else st.spacePos)
    (hsize : c.bytes.length ≤ byteLimit)
    (hfire : byteLimit ≤ (st.workingLine ++ c.bytes).length)
    (hspace : 0 < spC.size)
    (_hlast : st.lastPos.pos ≠ 0) :
    splitStep sb byteLimit st c =
      ({ workingLine := (st.workingLine ++ c.bytes).drop spC.pos,
         spacePos := ⟨0, 0⟩,
         lastPos := ⟨((st.workingLine ++ c.bytes).drop spC.pos).length,
                     c.bytes.length⟩ },
       [(applyTrim sb ((st.workingLine ++ c.bytes).take spC.pos), false)],
       false) := by
  have h1 : ¬(byteLimit < c.bytes.length ∧ sb.breakGraphemeClusters = false) := by
    rintro ⟨h, -⟩; omega
  have h2 : ¬(sb.breakGraphemeClusters = true ∧ byteLimit < c.bytes.length) := by
    rintro ⟨-, h⟩; omega
  simp only [splitStep]
  rw [if_neg h1, if_neg h2, ← hsp, if_pos hfire, if_pos hspace]

/-- Witness for C6 at a concrete state and cluster. -/
theorem splitStep_space_candidate_wins_witness :
    splitStep DefaultSplitBuilder 3
        ⟨[97, 32], ⟨2, 1⟩, ⟨2, 1⟩⟩ (asciiCh 98) =
      (⟨[98], ⟨0, 0⟩, ⟨1, 1⟩⟩, [([97, 32], false)], false) := by
  have h := splitStep_space_candidate_wins DefaultSplitBuilder 3
    ⟨[97, 32], ⟨2, 1⟩, ⟨2, 1⟩⟩ (asciiCh 98) ⟨2, 1⟩
    (by decide) (by decide) (by decide) (by decide) (by decide)
  rw [h]; decide

/-! ### C2: budget accounting of yielded lines -/

/-- Every line of a (completed) bisection loop carries a nil error. -/
theorem bisectLoop_no_error (sb : SplitBuilder) (byteLimit : Nat) :
    ∀ (rs : List GRune) (st : SplitState),
      ∀ p ∈ (bisectLoop sb byteLimit rs st).2, p.2 = false := by
  intro rs
  induction rs with
  | nil => intro st p hp; simp [bisectLoop] at hp
  | cons r rs ih =>
    intro st p hp
    simp only [bisectLoop] at hp
    split at hp
    · simp only [List.mem_cons] at hp
      rcases hp with h | h
      · rw [h]
      · exact ih _ p h
    · exact ih _ p hp

/-- Every line yielded by one step together with an error has pre-trim
byte length exceeding the limit. -/
theorem splitStep_error_line {sb : SplitBuilder} {byteLimit : Nat}
    {st : SplitState} {c : GCluster} :
    ∀ p ∈ (splitStep sb byteLimit st c).2.1, p.2 = true →
      ∃ l0, p.1 = applyTrim sb l0 ∧ byteLimit < l0.length := by
  intro p hp he
  simp only [splitStep] at hp
  split at hp
  case isTrue h1 =>
    rcases List.mem_append.mp hp with h | h
    · split at h
      · simp only [List.mem_singleton] at h
        rw [h] at he; simp at he
      · simp at h
    · simp only [List.mem_singleton] at h
      rw [h]
      exact ⟨c.bytes, rfl, h1.1⟩
  case isFalse h1 =>
    split at hp
    case isTrue h2 =>
      have hb := bisectLoop_no_error sb byteLimit c.runes st p hp
      rw [hb] at he; cases he
    case isFalse h2 =>
      repeat' split at hp
      all_goals simp only [List.mem_singleton, List.not_mem_nil] at hp
      all_goals try (rw [hp] at he; simp at he; done)
      all_goals rw [hp]
      all_goals exact ⟨st.workingLine ++ c.bytes, rfl, by assumption⟩

/-- C2 (amended). Every line yielded by `SplitBuilder.Split` together
with `ErrGraphemeClusterTooLarge` has pre-trim byte length strictly
greater than `byteLimit`: its content is the configured trimming of some
string longer than the limit. (The original ok-line half of the claim is
false, see the counterexample.) -/
theorem split_error_lines_exceed_limit (sb : SplitBuilder)
    (cs : List GCluster) (byteLimit : Nat) :
    ∀ p ∈ sb.Split cs byteLimit, p.2 = true →
      ∃ l0, p.1 = applyTrim sb l0 ∧ byteLimit < l0.length := by
  rw [SplitBuilder.Split]
  generalize initState = st
  induction cs generalizing st with
  | nil =>
    intro p hp he
    simp only [splitGo] at hp
    split at hp
    · simp only [List.mem_singleton] at hp
      rw [hp] at he ⊢
      simp only at he ⊢
      exact ⟨st.workingLine, rfl, by simpa using he⟩
    · simp at hp
  | cons c cs ih =>
    intro p hp he
    simp only [splitGo] at hp
    rcases List.mem_append.mp hp with h | h
    · exact splitStep_error_line p h he
    · split at h
      · simp at h
      · exact ih _ p h he

/-- Witness for C2 at a concrete oversized-cluster input. -/
theorem split_error_lines_exceed_limit_witness :
    DefaultSplitBuilder.Split wideAInput 3 =
        [([240, 160, 128, 128], true)] ∧
      ∃ l0, ([240, 160, 128, 128] : List Nat) = applyTrim DefaultSplitBuilder l0 ∧
        3 < l0.length := by
  refine ⟨by decide, ?_⟩
  exact split_error_lines_exceed_limit DefaultSplitBuilder wideAInput 3
    ([240, 160, 128, 128], true) (by decide) (by decide)

/-- Counterexample to C2 as stated: with the default configuration the
four-cluster input `abc` + CRLF under byte limit 4 yields a single line
with a nil error whose byte length is 5 > 4 (the space-candidate cut
includes the whitespace cluster that overshot the budget). -/
theorem split_budget_cex :
    DefaultSplitBuilder.Split abcCrlfInput 4 =
        [([97, 98, 99, 13, 10], false)] ∧
      4 < ([97, 98, 99, 13, 10] : List Nat).length := by decide

/-! ### Counterexamples to C1, C4 and C7 as stated -/

/-- Counterexample to C1 as stated: with the default configuration, an
oversized cluster stops the iterator, so the bytes of the following
cluster `a` are never yielded; the concatenation of all yielded lines is
a strict front part of the input, not the input. -/
theorem split_partition_cex :
    DefaultSplitBuilder.Split wideAInput 3 = [([240, 160, 128, 128], true)] ∧
      yieldedBytes (DefaultSplitBuilder.Split wideAInput 3) ≠
        inputBytes wideAInput := by decide

/-- Counterexample to C4 as stated: on the input space-`a`-`b`-wide under
byte limit 4, no cluster exceeds the limit, yet the default
`SplitString` returns `ErrGraphemeClusterTooLarge` (the residue after
the space cut still exceeds the budget at end of input), and it returns
the partial line output alongside the error rather than no output. -/
theorem splitString_strict_error_cex :
    SplitString spaceAbWideInput 4 =
        ([[32], [97, 98, 240, 160, 128, 128]], true) ∧
      (∀ c ∈ spaceAbWideInput, c.bytes.length ≤ 4) ∧
      (SplitString spaceAbWideInput 4).1 ≠ [] := by decide

/-- Counterexample to C7 as stated: the empty string has byte length 0,
strictly less than limit 5, yet `SplitString` returns zero lines rather
than exactly one line equal to the input. -/
theorem splitString_small_input_cex :
    SplitString [] 5 = ([], false) ∧
      (inputBytes []).length < 5 ∧
      (SplitString [] 5).1.length = 0 := by decide

/-! ### C8: trimming factors out of the run -/

/-- Strip trailing whitespace from the content of a yielded pair. -/
def trimPair (p : List Nat × Bool) : List Nat × Bool :=
  (trimRightBytes p.1, p.2)

theorem bisectLoop_trim (coe bgc : Bool) (byteLimit : Nat) :
    ∀ (rs : List GRune) (st : SplitState),
      bisectLoop ⟨coe, bgc, true⟩ byteLimit rs st =
        ((bisectLoop ⟨coe, bgc, false⟩ byteLimit rs st).1,
         (bisectLoop ⟨coe, bgc, false⟩ byteLimit rs st).2.map trimPair) := by
  intro rs
  induction rs with
  | nil => intro st; simp [bisectLoop]
  | cons r rs ih =>
    intro st
    by_cases h : byteLimit ≤ st.workingLine.length + r.bytes.length <;>
      simp [bisectLoop, h, ih, trimPair, applyTrim]

theorem splitStep_trim (coe bgc : Bool) (byteLimit : Nat) (st : SplitState)
    (c : GCluster) :
    splitStep ⟨coe, bgc, true⟩ byteLimit st c =
      ((splitStep ⟨coe, bgc, false⟩ byteLimit st c).1,
       (splitStep ⟨coe, bgc, false⟩ byteLimit st c).2.1.map trimPair,
       (splitStep ⟨coe, bgc, false⟩ byteLimit st c).2.2) := by
  simp only [splitStep]
  split_ifs <;>
    simp_all [bisectLoop_trim coe bgc byteLimit c.runes st,
      bisectLoop_trim coe true byteLimit c.runes st, trimPair, applyTrim]

theorem splitGo_trim (coe bgc : Bool) (byteLimit : Nat) :
    ∀ (cs : List GCluster) (st : SplitState),
      splitGo ⟨coe, bgc, true⟩ byteLimit cs st =
        (splitGo ⟨coe, bgc, false⟩ byteLimit cs st).map trimPair := by
  intro cs
  induction cs with
  | nil =>
    intro st
    by_cases h : 0 < st.workingLine.length <;>
      simp [splitGo, h, trimPair, applyTrim]
  | cons c cs ih =>
    intro st
    simp only [splitGo]
    rw [splitStep_trim coe bgc byteLimit st c]
    by_cases h : (splitStep ⟨coe, bgc, false⟩ byteLimit st c).2.2 <;>
      simp [h, ih]

/-- C8. Running `SplitBuilder.Split` with `trimTrailingWhiteSpace`
enabled yields exactly the run with it disabled (all other flags equal)
mapped by stripping trailing space, tab, newline and carriage-return
bytes from each line content, with identical per-line errors; in
particular both runs have the same number of lines. -/
theorem split_trim_factors (coe bgc : Bool) (cs : List GCluster)
    (byteLimit : Nat) :
    SplitBuilder.Split ⟨coe, bgc, true⟩ cs byteLimit =
      (SplitBuilder.Split ⟨coe, bgc, false⟩ cs byteLimit).map
        (fun p => (trimRightBytes p.1, p.2)) ∧
    (SplitBuilder.Split ⟨coe, bgc, true⟩ cs byteLimit).length =
      (SplitBuilder.Split ⟨coe, bgc, false⟩ cs byteLimit).length := by
  have h : trimPair = fun p : List Nat × Bool => (trimRightBytes p.1, p.2) := rfl
  have hg := splitGo_trim coe bgc byteLimit cs initState
  rw [h] at hg
  exact ⟨hg, by rw [SplitBuilder.Split, SplitBuilder.Split, hg, List.length_map]⟩

/-! ### C1: concatenation of yielded line contents -/

theorem bisectLoop_bytes (sb : SplitBuilder) (byteLimit : Nat)
    (hTrim : sb.trimTrailingWhiteSpace = false) :
    ∀ (rs : List GRune) (st : SplitState),
      yieldedBytes (bisectLoop sb byteLimit rs st).2 ++
          (bisectLoop sb byteLimit rs st).1.workingLine =
        st.workingLine ++ (rs.map GRune.bytes).flatten := by
  intro rs
  induction rs with
  | nil => intro st; simp [bisectLoop]
  | cons r rs ih =>
    intro st
    by_cases h : byteLimit ≤ st.workingLine.length + r.bytes.length <;>
      simp [bisectLoop, h, ih, applyTrim_of_trim_off hTrim, List.append_assoc]

theorem splitStep_bytes {sb : SplitBuilder} {byteLimit : Nat}
    (st : SplitState) (c : GCluster)
    (hTrim : sb.trimTrailingWhiteSpace = false) :
    yieldedBytes (splitStep sb byteLimit st c).2.1 ++
        (if (splitStep sb byteLimit st c).2.2 = true then []
         else (splitStep sb byteLimit st c).1.workingLine) =
      st.workingLine ++ c.bytes ∧
    ((splitStep sb byteLimit st c).2.2 = true →
      (∃ p ∈ (splitStep sb byteLimit st c).2.1, p.2 = true) ∧
        sb.continueOnError = false) := by
  have hat := applyTrim_of_trim_off hTrim
  simp only [splitStep]
  by_cases h1 : byteLimit < c.bytes.length ∧ sb.breakGraphemeClusters = false
  · simp only [if_pos h1]
    by_cases hf : 0 < st.workingLine.length
    · simp only [if_pos hf]
      cases hc : sb.continueOnError <;>
        simp [hc, hat, initState, yieldedBytes]
    · simp only [if_neg hf]
      have hw : st.workingLine = [] := by
        rw [← List.length_eq_zero]; omega
      cases hc : sb.continueOnError <;> simp [hc, hat, hw, yieldedBytes]
  · simp only [if_neg h1]
    by_cases h2 : sb.breakGraphemeClusters = true ∧ byteLimit < c.bytes.length
    · simp only [if_pos h2]
      refine ⟨?_, by simp⟩
      have hb := bisectLoop_bytes sb byteLimit hTrim c.runes st
      simpa [GCluster.bytes_eq_flatten] using hb
    · simp only [if_neg h2]
      by_cases hfire : byteLimit ≤ (st.workingLine ++ c.bytes).length
      · simp only [if_pos hfire]
        by_cases hsz : 0 < (if c.firstIsSpace = true
            then (⟨(st.workingLine ++ c.bytes).length, c.bytes.length⟩ : CharPos)
            else st.spacePos).size
        · simp only [if_pos hsz]
          simp [hat, yieldedBytes, List.take_append_drop]
        · simp only [if_neg hsz]
          by_cases hlt : byteLimit < (st.workingLine ++ c.bytes).length
          · simp only [if_pos hlt]
            by_cases hl0 : st.lastPos.pos = 0
            · simp only [if_pos hl0]
              cases hc : sb.continueOnError <;> simp [hc, hat, yieldedBytes]
            · simp only [if_neg hl0]
              simp [hat, yieldedBytes, List.take_append_drop]
          · simp only [if_neg hlt]
            simp [hat, yieldedBytes]
      · simp only [if_neg hfire]
        simp [yieldedBytes]

theorem splitGo_bytes (sb : SplitBuilder) (byteLimit : Nat)
    (hTrim : sb.trimTrailingWhiteSpace = false) :
    ∀ (cs : List GCluster) (st : SplitState),
      (∃ t, yieldedBytes (splitGo sb byteLimit cs st) ++ t =
          st.workingLine ++ inputBytes cs) ∧
      (sb.continueOnError = true →
        yieldedBytes (splitGo sb byteLimit cs st) =
          st.workingLine ++ inputBytes cs) ∧
      ((∀ p ∈ splitGo sb byteLimit cs st, p.2 = false) →
        yieldedBytes (splitGo sb byteLimit cs st) =
          st.workingLine ++ inputBytes cs) := by
  intro cs
  induction cs with
  | nil =>
    intro st
    by_cases h : 0 < st.workingLine.length
    · simp [splitGo, h, applyTrim_of_trim_off hTrim, yieldedBytes]
    · have hw : st.workingLine = [] := by
        rw [← List.length_eq_zero]; omega
      simp [splitGo, h, hw]
  | cons c cs ih =>
    intro st
    obtain ⟨hP, hQ⟩ := splitStep_bytes st c hTrim
    cases hstop : (splitStep sb byteLimit st c).2.2 with
    | false =>
      rw [hstop] at hP
      simp only [Bool.false_eq_true, if_false] at hP
      obtain ⟨⟨t, ht⟩, h2, h3⟩ := ih (splitStep sb byteLimit st c).1
      refine ⟨⟨t, ?_⟩, fun hc => ?_, fun hall => ?_⟩
      · simp only [splitGo, hstop, if_false, yieldedBytes_append,
          inputBytes_cons, Bool.false_eq_true]
        rw [List.append_assoc, ht, ← List.append_assoc, hP,
          List.append_assoc]
      · simp only [splitGo, hstop, if_false, yieldedBytes_append,
          inputBytes_cons, Bool.false_eq_true]
        rw [h2 hc, ← List.append_assoc, hP, List.append_assoc]
      · simp only [splitGo, hstop, if_false, yieldedBytes_append,
          inputBytes_cons, Bool.false_eq_true]
        have hall2 : ∀ p ∈ splitGo sb byteLimit cs (splitStep sb byteLimit st c).1,
            p.2 = false := by
          intro p hp
          refine hall p ?_
          simp only [splitGo, hstop, Bool.false_eq_true, if_false,
            List.mem_append]
          exact Or.inr hp
        rw [h3 hall2, ← List.append_assoc, hP, List.append_assoc]
    | true =>
      rw [hstop] at hP
      simp only [if_pos, List.append_nil] at hP
      obtain ⟨⟨p, hpmem, hperr⟩, hcoe⟩ := hQ hstop
      refine ⟨⟨inputBytes cs, ?_⟩, fun hc => ?_, fun hall => ?_⟩
      · simp only [splitGo, hstop, if_true, List.append_nil,
          inputBytes_cons]
        rw [hP, List.append_assoc]
      · rw [hc] at hcoe; cases hcoe
      · exfalso
        have hmem2 : p ∈ splitGo sb byteLimit (c :: cs) st := by
          simp only [splitGo, hstop, if_true, List.append_nil]
          exact hpmem
        rw [hall p hmem2] at hperr
        cases hperr

theorem collectLines_no_error (coe : Bool) :
    ∀ out : List (List Nat × Bool), (collectLines coe out).2 = false →
      (∀ p ∈ out, p.2 = false) ∧
        (collectLines coe out).1 = out.map Prod.fst := by
  intro out
  induction out with
  | nil => intro _; simp [collectLines]
  | cons q rest ih =>
    intro h
    obtain ⟨l, e⟩ := q
    by_cases hg : e = true ∧ coe = false
    · rw [collectLines, if_pos hg] at h
      cases h
    · rw [collectLines, if_neg hg] at h ⊢
      simp only [Bool.or_eq_false_iff] at h
      obtain ⟨h1, h2⟩ := ih h.2
      refine ⟨?_, by simp [h2]⟩
      intro p hp
      rcases List.mem_cons.mp hp with rfl | hp2
      · exact h.1
      · exact h1 p hp2

/-- C1 (amended). With trimming disabled, the concatenation of all line
contents yielded by a completed `SplitBuilder.Split` run is always a
front part of the input; it is the whole input whenever
`continueOnError` is set (no early iterator stop exists then), and
whenever the default-configuration `SplitString` returns a nil error the
concatenation of its lines is the whole input. (Unconditionally
reproducing the input fails: with `continueOnError` off, an error stops
the iterator and the remaining clusters are never yielded — see the
counterexample.) -/
theorem split_concat_characterization (sb : SplitBuilder)
    (cs : List GCluster) (byteLimit : Nat)
    (hTrim : sb.trimTrailingWhiteSpace = false) :
    (∃ t, yieldedBytes (sb.Split cs byteLimit) ++ t = inputBytes cs) ∧
    (sb.continueOnError = true →
      yieldedBytes (sb.Split cs byteLimit) = inputBytes cs) ∧
    ((SplitString cs byteLimit).2 = false →
      (SplitString cs byteLimit).1.flatten = inputBytes cs) := by
  obtain ⟨h1, h2, _⟩ := splitGo_bytes sb byteLimit hTrim cs initState
  refine ⟨by simpa [SplitBuilder.Split, initState] using h1,
    by simpa [SplitBuilder.Split, initState] using h2, fun hok => ?_⟩
  obtain ⟨_, _, g3⟩ := splitGo_bytes DefaultSplitBuilder byteLimit rfl cs initState
  obtain ⟨hnoerr, hlines⟩ := collectLines_no_error false
    (DefaultSplitBuilder.Split cs byteLimit) hok
  have hyb : yieldedBytes (splitGo DefaultSplitBuilder byteLimit cs initState) =
      inputBytes cs := by
    simpa [SplitBuilder.Split, initState] using g3 hnoerr
  calc (SplitString cs byteLimit).1.flatten
      = ((DefaultSplitBuilder.Split cs byteLimit).map Prod.fst).flatten := by
        rw [SplitString, SplitBuilder.SplitString,
          show DefaultSplitBuilder.continueOnError = false from rfl, hlines]
    _ = inputBytes cs := hyb

/-- Witness for C1 at a concrete input. -/
theorem split_concat_characterization_witness :
    (∃ t, yieldedBytes (DefaultSplitBuilder.Split [asciiCh 97] 2) ++ t =
        inputBytes [asciiCh 97]) ∧
    (DefaultSplitBuilder.continueOnError = true →
      yieldedBytes (DefaultSplitBuilder.Split [asciiCh 97] 2) =
        inputBytes [asciiCh 97]) ∧
    ((SplitString [asciiCh 97] 2).2 = false →
      (SplitString [asciiCh 97] 2).1.flatten = inputBytes [asciiCh 97]) :=
  split_concat_characterization DefaultSplitBuilder [asciiCh 97] 2 (by decide)

/-! ### C4: an oversized cluster always produces the error -/

theorem splitGo_error_of_oversized (byteLimit : Nat) :
    ∀ (cs : List GCluster) (st : SplitState),
      (∃ c ∈ cs, byteLimit < c.bytes.length) →
      ∃ p ∈ splitGo DefaultSplitBuilder byteLimit cs st, p.2 = true := by
  intro cs
  induction cs with
  | nil => intro st h; simp at h
  | cons c cs ih =>
    intro st h
    by_cases hover : byteLimit < c.bytes.length
    · refine ⟨(applyTrim DefaultSplitBuilder c.bytes, true), ?_, rfl⟩
      simp only [splitGo, splitStep]
      rw [if_pos ⟨hover, rfl⟩]
      simp
    · have hcs : ∃ x ∈ cs, byteLimit < x.bytes.length := by
        rcases h with ⟨x, hx, hxl⟩
        rcases List.mem_cons.mp hx with rfl | hx2
        · exact absurd hxl hover
        · exact ⟨x, hx2, hxl⟩
      obtain ⟨_, hQ⟩ := @splitStep_bytes DefaultSplitBuilder byteLimit st c rfl
      cases hstop : (splitStep DefaultSplitBuilder byteLimit st c).2.2 with
      | true =>
        obtain ⟨⟨p, hpmem, hperr⟩, -⟩ := hQ hstop
        refine ⟨p, ?_, hperr⟩
        simp only [splitGo, hstop, if_true, List.append_nil]
        exact hpmem
      | false =>
        obtain ⟨p, hpmem, hperr⟩ :=
          ih (splitStep DefaultSplitBuilder byteLimit st c).1 hcs
        refine ⟨p, ?_, hperr⟩
        simp only [splitGo, hstop, Bool.false_eq_true, if_false]
        exact List.mem_append.mpr (Or.inr hpmem)

theorem collectLines_err_of_error_item :
    ∀ out : List (List Nat × Bool), (∃ p ∈ out, p.2 = true) →
      (collectLines false out).2 = true := by
  intro out
  induction out with
  | nil => rintro ⟨p, hp, -⟩; cases hp
  | cons q rest ih =>
    rintro ⟨p, hp, hperr⟩
    obtain ⟨l, e⟩ := q
    by_cases he : e = true
    · rw [collectLines, if_pos ⟨he, rfl⟩]
    · rw [collectLines, if_neg (fun hh => he hh.1)]
      rcases List.mem_cons.mp hp with rfl | hp2
      · exact absurd hperr he
      · simp [ih ⟨p, hp2, hperr⟩]

/-- C4 (amended). The default-configuration `SplitString` returns
`ErrGraphemeClusterTooLarge` whenever some grapheme cluster of the input
has byte length exceeding `byteLimit`. (The converse fails, and the
error case does return the partially collected lines, including the
error line, alongside the error — see the counterexample.) -/
theorem splitString_error_of_oversized_cluster (cs : List GCluster)
    (byteLimit : Nat) (h : ∃ c ∈ cs, byteLimit < c.bytes.length) :
    (SplitString cs byteLimit).2 = true := by
  obtain ⟨p, hp, hperr⟩ := splitGo_error_of_oversized byteLimit cs initState h
  rw [SplitString, SplitBuilder.SplitString,
    show DefaultSplitBuilder.continueOnError = false from rfl]
  refine collectLines_err_of_error_item _ ⟨p, ?_, hperr⟩
  rw [SplitBuilder.Split]
  exact hp

/-- Witness for C4 at a concrete oversized-cluster input. -/
theorem splitString_error_of_oversized_cluster_witness :
    (∃ c ∈ wideAInput, 3 < c.bytes.length) ∧
      (SplitString wideAInput 3).2 = true :=
  ⟨⟨wideCh, by decide, by decide⟩,
   splitString_error_of_oversized_cluster wideAInput 3
     ⟨wideCh, by decide, by decide⟩⟩

/-! ### C7: inputs strictly shorter than the limit -/

theorem splitGo_small (sb : SplitBuilder) (byteLimit : Nat) :
    ∀ (cs : List GCluster) (st : SplitState),
      st.workingLine.length + (inputBytes cs).length < byteLimit →
      splitGo sb byteLimit cs st =
        if st.workingLine ++ inputBytes cs = [] then []
        else [(applyTrim sb (st.workingLine ++ inputBytes cs), false)] := by
  intro cs
  induction cs with
  | nil =>
    intro st hlen
    simp only [splitGo, inputBytes_nil, List.append_nil]
    by_cases h : 0 < st.workingLine.length
    · rw [if_pos h, if_neg (List.length_pos.mp h)]
      have hno : ¬ byteLimit < st.workingLine.length := by omega
      simp [hno]
    · have hw : st.workingLine = [] := by rw [← List.length_eq_zero]; omega
      simp [h, hw]
  | cons c cs ih =>
    intro st hlen
    have htot : (inputBytes (c :: cs)).length =
        c.bytes.length + (inputBytes cs).length := by
      simp [inputBytes_cons]
    rw [htot] at hlen
    simp only [splitGo, splitStep]
    have h1 : ¬(byteLimit < c.bytes.length ∧
        sb.breakGraphemeClusters = false) := by
      rintro ⟨hz, -⟩; omega
    have h2 : ¬(sb.breakGraphemeClusters = true ∧
        byteLimit < c.bytes.length) := by
      rintro ⟨-, hz⟩; omega
    have hfire : ¬ byteLimit ≤ (st.workingLine ++ c.bytes).length := by
      rw [List.length_append]; omega
    simp only [if_neg h1, if_neg h2, if_neg hfire, Bool.false_eq_true,
      if_false, List.nil_append]
    have hlen2 : (st.workingLine ++ c.bytes).length +
        (inputBytes cs).length < byteLimit := by
      rw [List.length_append]; omega
    rw [ih _ hlen2, inputBytes_cons, ← List.append_assoc]

/-- C7 (amended). For every NON-empty input whose total byte length is
strictly below the limit, `SplitBuilder.SplitString` (any configuration)
returns exactly one line equal to the input (trimmed of trailing
whitespace when that option is set) with a nil error; in particular the
default `SplitString` returns exactly the input as its single line, and
`WrapString` returns the input unchanged with no newline inserted. (The
claim fails for the empty string, which produces zero lines — see the
counterexample.) -/
theorem splitString_small_input (sb : SplitBuilder) (cs : List GCluster)
    (byteLimit : Nat) (hne : inputBytes cs ≠ [])
    (hlt : (inputBytes cs).length < byteLimit) :
    sb.SplitString cs byteLimit =
        ([applyTrim sb (inputBytes cs)], false) ∧
    SplitString cs byteLimit = ([inputBytes cs], false) ∧
    WrapString cs byteLimit = (inputBytes cs, false) := by
  have hsplit : ∀ b : SplitBuilder, b.Split cs byteLimit =
      [(applyTrim b (inputBytes cs), false)] := by
    intro b
    rw [SplitBuilder.Split]
    rw [splitGo_small b byteLimit cs initState (by simp [initState]; omega)]
    rw [if_neg (by simpa [initState] using hne)]
    simp [initState]
  have hss : ∀ b : SplitBuilder, b.SplitString cs byteLimit =
      ([applyTrim b (inputBytes cs)], false) := by
    intro b
    rw [SplitBuilder.SplitString, hsplit b]
    simp [collectLines]
  have hd : SplitString cs byteLimit = ([inputBytes cs], false) := by
    rw [SplitString, hss DefaultSplitBuilder,
      applyTrim_of_trim_off rfl]
  refine ⟨hss sb, hd, ?_⟩
  rw [WrapString, hd]
  simp [join]

/-- Witness for C7 at a concrete one-byte input below limit 2, with a
trimming configuration on the builder conjunct. -/
theorem splitString_small_input_witness :
    (SplitBuilder.mk false false true).SplitString [asciiCh 97] 2 =
        ([applyTrim (SplitBuilder.mk false false true) (inputBytes [asciiCh 97])],
         false) ∧
      SplitString [asciiCh 97] 2 = ([inputBytes [asciiCh 97]], false) ∧
      WrapString [asciiCh 97] 2 = (inputBytes [asciiCh 97], false) :=
  splitString_small_input (SplitBuilder.mk false false true) [asciiCh 97] 2
    (by decide) (by decide)

/-! ### C10: yielded lines are non-empty when trimming is off -/

theorem take_ne_nil {n : Nat} {l : List Nat} (hn : n ≠ 0) (hl : l ≠ []) :
    l.take n ≠ [] := by
  intro hnil
  rcases List.take_eq_nil_iff.mp hnil with h | h
  exacts [hn h, hl h]

theorem bisectLoop_nonempty (sb : SplitBuilder) (byteLimit : Nat)
    (hTrim : sb.trimTrailingWhiteSpace = false) :
    ∀ (rs : List GRune) (st : SplitState), (∀ r ∈ rs, r.bytes ≠ []) →
      (0 < st.spacePos.size → 0 < st.spacePos.pos) →
      (∀ p ∈ (bisectLoop sb byteLimit rs st).2, p.1 ≠ []) ∧
      (0 < (bisectLoop sb byteLimit rs st).1.spacePos.size →
        0 < (bisectLoop sb byteLimit rs st).1.spacePos.pos) := by
  intro rs
  induction rs with
  | nil => intro st _ hsp; simpa [bisectLoop] using hsp
  | cons r rs ih =>
    intro st hr hsp
    have hrb : r.bytes ≠ [] := hr r (by simp)
    have hwl : st.workingLine ++ r.bytes ≠ [] := by
      simp [List.append_eq_nil, hrb]
    have hrs : ∀ x ∈ rs, x.bytes ≠ [] := fun x hx => hr x (by simp [hx])
    simp only [bisectLoop]
    by_cases h : byteLimit ≤ (st.workingLine ++ r.bytes).length
    · simp only [if_pos h]
      obtain ⟨ih1, ih2⟩ := ih ⟨[], ⟨0, 0⟩, ⟨0, r.bytes.length⟩⟩ hrs (by simp)
      refine ⟨?_, ih2⟩
      intro p hp
      rcases List.mem_cons.mp hp with rfl | hp2
      · simpa [applyTrim_of_trim_off hTrim] using hwl
      · exact ih1 p hp2
    · simp only [if_neg h]
      exact ih ⟨st.workingLine ++ r.bytes, st.spacePos,
        ⟨(st.workingLine ++ r.bytes).length, r.bytes.length⟩⟩ hrs hsp

theorem splitStep_nonempty {sb : SplitBuilder} {byteLimit : Nat}
    (st : SplitState) (c : GCluster)
    (hTrim : sb.trimTrailingWhiteSpace = false)
    (hc : c.bytes ≠ []) (hrunes : ∀ r ∈ c.runes, r.bytes ≠ [])
    (hsp : 0 < st.spacePos.size → 0 < st.spacePos.pos) :
    (∀ p ∈ (splitStep sb byteLimit st c).2.1, p.1 ≠ []) ∧
    (0 < (splitStep sb byteLimit st c).1.spacePos.size →
      0 < (splitStep sb byteLimit st c).1.spacePos.pos) := by
  have hat := applyTrim_of_trim_off hTrim
  have hwl : st.workingLine ++ c.bytes ≠ [] := by
    simp [List.append_eq_nil, hc]
  simp only [splitStep]
  by_cases h1 : byteLimit < c.bytes.length ∧ sb.breakGraphemeClusters = false
  · simp only [if_pos h1]
    by_cases hf : 0 < st.workingLine.length
    · simp only [if_pos hf]
      refine ⟨?_, by simp [initState]⟩
      intro p hp
      rcases List.mem_append.mp hp with h | h
      · rcases List.mem_singleton.mp h with rfl
        simpa [hat] using List.length_pos.mp hf
      · rcases List.mem_singleton.mp h with rfl
        simpa [hat] using hc
    · simp only [if_neg hf]
      refine ⟨?_, hsp⟩
      intro p hp
      rcases List.mem_append.mp hp with h | h
      · simp at h
      · rcases List.mem_singleton.mp h with rfl
        simpa [hat] using hc
  · simp only [if_neg h1]
    by_cases h2 : sb.breakGraphemeClusters = true ∧ byteLimit < c.bytes.length
    · simp only [if_pos h2]
      exact bisectLoop_nonempty sb byteLimit hTrim c.runes st hrunes hsp
    · simp only [if_neg h2]
      by_cases hfire : byteLimit ≤ (st.workingLine ++ c.bytes).length
      · simp only [if_pos hfire]
        by_cases hsz : 0 < (if c.firstIsSpace = true
            then (⟨(st.workingLine ++ c.bytes).length, c.bytes.length⟩ : CharPos)
            else st.spacePos).size
        · simp only [if_pos hsz]
          refine ⟨?_, by simp⟩
          intro p hp
          rcases List.mem_singleton.mp hp with rfl
          simp only [hat]
          refine take_ne_nil ?_ hwl
          by_cases hfs : c.firstIsSpace = true
          · rw [if_pos hfs] at hsz ⊢
            exact Nat.pos_iff_ne_zero.mp (List.length_pos.mpr hwl)
          · rw [if_neg hfs] at hsz ⊢
            exact Nat.pos_iff_ne_zero.mp (hsp hsz)
        · simp only [if_neg hsz]
          by_cases hlt : byteLimit < (st.workingLine ++ c.bytes).length
          · simp only [if_pos hlt]
            by_cases hl0 : st.lastPos.pos = 0
            · simp only [if_pos hl0]
              refine ⟨?_, by simp⟩
              intro p hp
              rcases List.mem_singleton.mp hp with rfl
              simpa [hat] using hwl
            · simp only [if_neg hl0]
              refine ⟨?_, by simp⟩
              intro p hp
              rcases List.mem_singleton.mp hp with rfl
              simp only [hat]
              exact take_ne_nil hl0 hwl
          · simp only [if_neg hlt]
            refine ⟨?_, by simp⟩
            intro p hp
            rcases List.mem_singleton.mp hp with rfl
            simpa [hat] using hwl
      · simp only [if_neg hfire]
        refine ⟨by simp, ?_⟩
        by_cases hfs : c.firstIsSpace = true
        · rw [if_pos hfs]
          exact fun _ => List.length_pos.mpr hwl
        · rw [if_neg hfs]
          exact hsp

/-- C10. With `trimTrailingWhiteSpace` disabled and well-formed oracle
output (clusters and their runes are non-empty), every line yielded by a
completed `SplitBuilder.Split` run is a non-empty string, in every
configuration. -/
theorem split_lines_nonempty (sb : SplitBuilder) (cs : List GCluster)
    (byteLimit : Nat) (hTrim : sb.trimTrailingWhiteSpace = false)
    (hcs : ∀ x ∈ cs, x.bytes ≠ [] ∧ ∀ r ∈ x.runes, r.bytes ≠ []) :
    ∀ p ∈ sb.Split cs byteLimit, p.1 ≠ [] := by
  rw [SplitBuilder.Split]
  have hgen : ∀ (cs2 : List GCluster) (st : SplitState),
      (0 < st.spacePos.size → 0 < st.spacePos.pos) →
      (∀ x ∈ cs2, x.bytes ≠ [] ∧ ∀ r ∈ x.runes, r.bytes ≠ []) →
      ∀ p ∈ splitGo sb byteLimit cs2 st, p.1 ≠ [] := by
    intro cs2
    induction cs2 with
    | nil =>
      intro st _ _ p hp
      simp only [splitGo] at hp
      split at hp
      · rcases List.mem_singleton.mp hp with rfl
        simp only [applyTrim_of_trim_off hTrim]
        exact List.length_pos.mp (by assumption)
      · simp at hp
    | cons c cs2 ih =>
      intro st hst hcs2 p hp
      have hhd := hcs2 c (by simp)
      have htl : ∀ x ∈ cs2, x.bytes ≠ [] ∧ ∀ r ∈ x.runes, r.bytes ≠ [] :=
        fun x hx => hcs2 x (by simp [hx])
      obtain ⟨hout, hnext⟩ := splitStep_nonempty st c hTrim hhd.1 hhd.2 hst
      simp only [splitGo] at hp
      rcases List.mem_append.mp hp with h | h
      · exact hout p h
      · split at h
        · simp at h
        · exact ih _ hnext htl p h
  exact hgen cs initState (by simp [initState]) hcs

/-- Witness for C10 at a concrete input. -/
theorem split_lines_nonempty_witness :
    (∀ x ∈ abcdInput, x.bytes ≠ [] ∧ ∀ r ∈ x.runes, r.bytes ≠ []) ∧
      ∀ p ∈ DefaultSplitBuilder.Split abcdInput 5, p.1 ≠ [] :=
  ⟨by decide,
   split_lines_nonempty DefaultSplitBuilder abcdInput 5 (by decide) (by decide)⟩

/-! ### C3: line boundaries are cluster boundaries (default config) -/

/-- The invariant of the default-configuration scan tying the working
line to the cluster suffix `ws` of the consumed input that it holds: the
working line is exactly the bytes of `ws`, the last-safe candidate marks
the end of the working line, and a recorded space candidate marks a
cluster boundary inside `ws`; all clusters of `ws` are non-empty. -/
def wsInv (st : SplitState) (ws : List GCluster) : Prop :=
  st.workingLine = inputBytes ws ∧
  st.lastPos.pos = st.workingLine.length ∧
  (0 < st.spacePos.size → ∃ w1 w2, ws = w1 ++ w2 ∧
    st.spacePos.pos = (inputBytes w1).length) ∧
  (∀ x ∈ ws, x.bytes ≠ [])

theorem splitStep_boundaries (byteLimit : Nat) (st : SplitState)
    (c : GCluster) (ws : List GCluster) (hinv : wsInv st ws)
    (hc : c.bytes ≠ []) :
    ∃ (gs : List (List GCluster)) (ws2 : List GCluster),
      ((splitStep DefaultSplitBuilder byteLimit st c).2.1).map Prod.fst =
        gs.map inputBytes ∧
      gs.flatten ++ ws2 = ws ++ [c] ∧
      ((splitStep DefaultSplitBuilder byteLimit st c).2.2 = false →
        wsInv (splitStep DefaultSplitBuilder byteLimit st c).1 ws2) := by
  obtain ⟨hwl, hlast, hspace, hne⟩ := hinv
  have hat := @applyTrim_of_trim_off DefaultSplitBuilder rfl
  simp only [splitStep]
  by_cases h1 : byteLimit < c.bytes.length
  · rw [if_pos ⟨h1, rfl⟩]
    by_cases hf : 0 < st.workingLine.length
    · refine ⟨[ws, [c]], [], ?_, by simp,
        fun hh => by simp [DefaultSplitBuilder] at hh⟩
      simp only [if_pos hf]
      simp [hat, hwl, inputBytes_singleton]
    · have hws : ws = [] := inputBytes_eq_nil hne
        (by rw [← hwl, ← List.length_eq_zero]; omega)
      refine ⟨[[c]], [], ?_, by simp [hws],
        fun hh => by simp [DefaultSplitBuilder] at hh⟩
      simp only [if_neg hf]
      simp [hat, inputBytes_singleton]
  · rw [if_neg (fun hh => h1 hh.1),
      if_neg (fun hh : DefaultSplitBuilder.breakGraphemeClusters = true ∧ _ =>
        by simpa [DefaultSplitBuilder] using hh.1)]
    by_cases hfire : byteLimit ≤ (st.workingLine ++ c.bytes).length
    · rw [if_pos hfire]
      by_cases hfs : c.firstIsSpace = true
      · rw [if_pos hfs]
        have hsz : (0:Nat) < (⟨(st.workingLine ++ c.bytes).length,
            c.bytes.length⟩ : CharPos).size := by
          simpa using List.length_pos.mpr hc
        rw [if_pos hsz]
        refine ⟨[ws ++ [c]], [], ?_, by simp, fun _ => ?_⟩
        · simp [hat, hwl, List.take_length]
        · refine ⟨?_, ?_, by simp, by simp⟩
          · show List.drop _ _ = _
            simp [List.drop_length]
          · show _ = (List.drop _ _).length
            rfl
      · rw [if_neg hfs]
        by_cases hsz : 0 < st.spacePos.size
        · rw [if_pos hsz]
          obtain ⟨w1, w2, hws, hpos⟩ := hspace hsz
          have hsplit2 : st.workingLine ++ c.bytes =
              inputBytes w1 ++ inputBytes (w2 ++ [c]) := by
            rw [hwl, hws]
            simp [inputBytes_singleton, List.append_assoc]
          refine ⟨[w1], w2 ++ [c], ?_, by rw [hws]; simp, fun _ => ?_⟩
          · simp only [List.map_cons, List.map_nil, hat]
            rw [hsplit2, hpos, List.take_left]
          · refine ⟨?_, ?_, by simp, ?_⟩
            · show List.drop _ _ = _
              rw [hsplit2, hpos, List.drop_left]
            · show _ = (List.drop _ _).length
              rfl
            · intro x hx
              rcases List.mem_append.mp hx with h | h
              · exact hne x (by rw [hws]; exact List.mem_append.mpr (Or.inr h))
              · rcases List.mem_singleton.mp h with rfl
                exact hc
        · rw [if_neg hsz]
          by_cases hlt : byteLimit < (st.workingLine ++ c.bytes).length
          · rw [if_pos hlt]
            by_cases hl0 : st.lastPos.pos = 0
            · rw [if_pos hl0]
              refine ⟨[ws ++ [c]], [], ?_, by simp,
                fun hh => by simp [DefaultSplitBuilder] at hh⟩
              simp [hat, hwl, inputBytes_singleton]
            · rw [if_neg hl0]
              have htake : (st.workingLine ++ c.bytes).take st.lastPos.pos =
                  inputBytes ws := by
                rw [hlast, ← hwl, List.take_left]
              have hdrop : (st.workingLine ++ c.bytes).drop st.lastPos.pos =
                  c.bytes := by
                rw [hlast, List.drop_left]
              refine ⟨[ws], [c], ?_, by simp, fun _ => ?_⟩
              · simp [hat, htake]
              · refine ⟨?_, ?_, by simp, ?_⟩
                · show List.drop _ _ = _
                  rw [hdrop, inputBytes_singleton]
                · show _ = (List.drop _ _).length
                  rfl
                · intro x hx
                  rcases List.mem_singleton.mp hx with rfl
                  exact hc
          · rw [if_neg hlt]
            refine ⟨[ws ++ [c]], [], ?_, by simp, fun _ => ?_⟩
            · simp [hat, hwl, inputBytes_singleton]
            · exact ⟨rfl, rfl, by simp, by simp⟩
    · rw [if_neg hfire]
      refine ⟨[], ws ++ [c], by simp, by simp, fun _ => ?_⟩
      refine ⟨?_, rfl, ?_, ?_⟩
      · show st.workingLine ++ c.bytes = _
        rw [hwl]
        simp [inputBytes_singleton]
      · by_cases hfs : c.firstIsSpace = true
        · rw [if_pos hfs]
          intro _
          refine ⟨ws ++ [c], [], by simp, ?_⟩
          show (st.workingLine ++ c.bytes).length = _
          rw [hwl]
          simp [inputBytes_singleton]
        · rw [if_neg hfs]
          intro hh
          obtain ⟨w1, w2, hws, hpos⟩ := hspace hh
          exact ⟨w1, w2 ++ [c], by rw [hws]; simp, hpos⟩
      · intro x hx
        rcases List.mem_append.mp hx with h | h
        · exact hne x h
        · rcases List.mem_singleton.mp h with rfl
          exact hc

theorem splitGo_boundaries (byteLimit : Nat) :
    ∀ (cs : List GCluster) (st : SplitState) (ws : List GCluster),
      wsInv st ws → (∀ x ∈ cs, x.bytes ≠ []) →
      ∃ groups : List (List GCluster),
        (splitGo DefaultSplitBuilder byteLimit cs st).map Prod.fst =
          groups.map inputBytes ∧
        ∃ t, groups.flatten ++ t = ws ++ cs := by
  intro cs
  induction cs with
  | nil =>
    intro st ws hinv _
    obtain ⟨hwl, -, -, hne⟩ := hinv
    by_cases h : 0 < st.workingLine.length
    · refine ⟨[ws], ?_, [], by simp⟩
      simp only [splitGo, if_pos h]
      simp [@applyTrim_of_trim_off DefaultSplitBuilder rfl, hwl]
    · have hws : ws = [] := inputBytes_eq_nil hne
        (by rw [← hwl, ← List.length_eq_zero]; omega)
      refine ⟨[], ?_, [], by simp [hws]⟩
      simp [splitGo, h]
  | cons c cs ih =>
    intro st ws hinv hcs
    obtain ⟨gs, ws2, hmap, hflat, hnext⟩ :=
      splitStep_boundaries byteLimit st c ws hinv (hcs c (by simp))
    have htl : ∀ x ∈ cs, x.bytes ≠ [] := fun x hx => hcs x (by simp [hx])
    cases hstop : (splitStep DefaultSplitBuilder byteLimit st c).2.2 with
    | true =>
      refine ⟨gs, ?_, ws2 ++ cs, ?_⟩
      · simp only [splitGo, hstop, if_true, List.append_nil]
        exact hmap
      · rw [← List.append_assoc, hflat]
        simp
    | false =>
      obtain ⟨groups2, hmap2, t2, hflat2⟩ := ih
        (splitStep DefaultSplitBuilder byteLimit st c).1 ws2 (hnext hstop) htl
      refine ⟨gs ++ groups2, ?_, t2, ?_⟩
      · simp only [splitGo, hstop, Bool.false_eq_true, if_false,
          List.map_append]
        rw [hmap, hmap2]
      · rw [List.flatten_append, List.append_assoc, hflat2,
          ← List.append_assoc, hflat]
        simp

/-- C3. Under the default configuration, every completed
`SplitBuilder.Split` run cuts only at grapheme-cluster boundaries: the
yielded line contents are exactly the byte images of consecutive groups
of whole input clusters, and those groups, in order, form a front part
of the input cluster sequence — no line boundary falls strictly inside a
cluster. -/
theorem split_lines_on_cluster_boundaries (cs : List GCluster)
    (byteLimit : Nat) (hcs : ∀ x ∈ cs, x.bytes ≠ []) :
    ∃ groups : List (List GCluster),
      (DefaultSplitBuilder.Split cs byteLimit).map Prod.fst =
        groups.map inputBytes ∧
      ∃ t, groups.flatten ++ t = cs := by
  obtain ⟨groups, hmap, t, hflat⟩ := splitGo_boundaries byteLimit cs initState
    [] ⟨rfl, rfl, by simp [initState], by simp⟩ hcs
  exact ⟨groups, by rwa [SplitBuilder.Split], t, by simpa using hflat⟩

/-- Witness for C3 at a concrete input. -/
theorem split_lines_on_cluster_boundaries_witness :
    (∀ x ∈ abcdInput, x.bytes ≠ []) ∧
      ∃ groups : List (List GCluster),
        (DefaultSplitBuilder.Split abcdInput 5).map Prod.fst =
          groups.map inputBytes ∧
        ∃ t, groups.flatten ++ t = abcdInput :=
  ⟨by decide, split_lines_on_cluster_boundaries abcdInput 5 (by decide)⟩

end Wordwrap
